import Mathlib

/-!
# Verification of the MAP 1-D stencil programs

Shallow embedding of the two C++ programs `src/h_serial.cpp` and
`src/h_parallel.cpp` (and their `10k` variants, which differ only in the
hardcoded step count and the final print).

* The state vector `psi` is a `List R` over a commutative ring `R`; the real
  programs instantiate `R := ℂ` with coefficients `c = cos (J*dt)`,
  `s = sin (J*dt)` and imaginary unit `im = Complex.I`.  The update loops use
  only ring operations on those three constants, so the embedding is generic
  in `(c, s, im)`.
* The MPI topology of `h_parallel.cpp` is deterministic: rank `r`'s
  `MPI_Sendrecv` pair delivers, into `left_recv`, the left neighbour's
  pre-step `psi[local_N-1]` (its `right_send`), and into `right_recv` the
  right neighbour's pre-step `psi[0]` (its `left_send`).  One distributed step
  is therefore a pure function from the list of all pre-step segments to the
  list of post-step segments.
-/

namespace MAP

/-- Partitioner, `h_parallel.cpp` lines 38-40:
`base = N / size; rem = N % size; local_N = base + (rank < rem ? 1 : 0)`. -/
def localLen (N P r : Nat) : Nat :=
  N / P + (if r < N % P then 1 else 0)

/-- Global offset of rank `r`'s segment: cumulative sum of the lengths of the
lower ranks (the segments are laid out in rank order). -/
def offset (N P : Nat) : Nat → Nat
  | 0 => 0
  | r + 1 => offset N P r + localLen N P r

/-- `h_parallel.cpp` line 52: `left_rank = (rank == 0 ? MPI_PROC_NULL : rank-1)` —
rank `r` has a left neighbour iff `r ≠ 0`. -/
def hasLeft (r : Nat) : Prop := r ≠ 0

/-- `h_parallel.cpp` line 53: `right_rank = (rank == size-1 ? MPI_PROC_NULL : rank+1)` —
rank `r` has a right neighbour iff `r ≠ P - 1`. -/
def hasRight (P r : Nat) : Prop := r ≠ P - 1

instance (r : Nat) : Decidable (hasLeft r) := by
  unfold hasLeft; infer_instance

instance (P r : Nat) : Decidable (hasRight P r) := by
  unfold hasRight; infer_instance

variable {R : Type} [CommRing R]

/-- Body of the update loop (`h_serial.cpp` lines 29-31, `h_parallel.cpp`
lines 69-71) at loop index `i`:
`temp = psi[i]; psi[i] = c*psi[i] - im*s*psi[i+1]; psi[i+1] = c*psi[i+1] - im*s*temp`
where `c = cos (J*dt)`, `s = sin (J*dt)` and `im` is the imaginary unit `1i`.
Note the second assignment reads `psi[i+1]` before it is overwritten and uses
the saved `temp`, exactly as the C++ does. -/
def pairUpdate (c s im : R) (psi : List R) (i : Nat) : List R :=
  let temp := psi.getD i 0
  let psi1 := psi.set i (c * psi.getD i 0 - im * s * psi.getD (i + 1) 0)
  psi1.set (i + 1) (c * psi1.getD (i + 1) 0 - im * s * temp)

/-- The in-place pairwise sweep (`h_serial.cpp` lines 28-32, `h_parallel.cpp`
lines 68-72): `for (int i = 0; i < L - 1; i++)` applied to the body
`pairUpdate`, i.e. a left fold of the body over the indices `0, …, L-2` in
increasing order. -/
def sweepLoop (c s im : R) (psi : List R) : List R :=
  (List.range (psi.length - 1)).foldl (pairUpdate c s im) psi

/-- Serial initial state, `h_serial.cpp` line 22:
`vector<complex<double>> psi(N, 1.0)`. -/
def initPsi (N : Nat) : List R := List.replicate N 1

/-- The serial step loop, `h_serial.cpp` lines 27-33: `steps` sweeps in
sequence. -/
def serialRun (c s im : R) : Nat → List R → List R
  | 0, psi => psi
  | steps + 1, psi => serialRun c s im steps (sweepLoop c s im psi)

/-- Value delivered into rank `r`'s `left_recv` by the second `MPI_Sendrecv`
(`h_parallel.cpp` lines 59-61): the left neighbour's `right_send`, i.e. the
left neighbour's pre-step `psi[local_N - 1]` (line 50). -/
def recvLeft (segs : List (List R)) (r : Nat) : R :=
  (segs.getD (r - 1) []).getLastD 0

/-- Value delivered into rank `r`'s `right_recv` by the first `MPI_Sendrecv`
(`h_parallel.cpp` lines 55-57): the right neighbour's `left_send`, i.e. the
right neighbour's pre-step `psi[0]` (line 50). -/
def recvRight (segs : List (List R)) (r : Nat) : R :=
  (segs.getD (r + 1) []).headD 0

/-- Rank `r`'s segment after the boundary-overwrite step (`h_parallel.cpp`
lines 64-65): `if (left_rank != MPI_PROC_NULL) psi[0] = left_recv;`
`if (right_rank != MPI_PROC_NULL) psi[local_N-1] = right_recv;`.
When a neighbour is absent the corresponding write is skipped entirely and
the `0` sentinel of the receive buffer (line 49) never enters the segment. -/
def postOverwrite (P r : Nat) (segs : List (List R)) : List R :=
  let seg := segs.getD r []
  let seg1 := if r = 0 then seg else seg.set 0 (recvLeft segs r)
  if r = P - 1 then seg1 else seg1.set (seg1.length - 1) (recvRight segs r)

/-- One full step of rank `r`: halo exchange, boundary overwrite, then the
local sweep (`h_parallel.cpp` lines 48-73, one iteration of the step loop). -/
def workerStep (c s im : R) (P r : Nat) (segs : List (List R)) : List R :=
  sweepLoop c s im (postOverwrite P r segs)

/-- One lockstep step of all `P = segs.length` workers.  All sends are
captured from the pre-step state (line 50) before any overwrite, and each
worker mutates only its own segment, so the step is a pure map over ranks. -/
def parallelStep (c s im : R) (segs : List (List R)) : List (List R) :=
  (List.range segs.length).map (fun r => workerStep c s im segs.length r segs)

/-- Parallel initial state, `h_parallel.cpp` line 42: each rank allocates
`vector<complex<double>> psi(local_N, 1.0)`. -/
def initSegs (N P : Nat) : List (List R) :=
  (List.range P).map (fun r => List.replicate (localLen N P r) 1)

/-- The parallel step loop, `h_parallel.cpp` lines 48-73, run for `steps`
iterations from a given list of segments. -/
def parallelRun (c s im : R) : Nat → List (List R) → List (List R)
  | 0, segs => segs
  | steps + 1, segs => parallelRun c s im steps (parallelStep c s im segs)

/-- The global vector reconstructed from the distributed run: the final
segments concatenated in rank order. -/
def parallelConcat (c s im : R) (steps N P : Nat) : List R :=
  (parallelRun c s im steps (initSegs N P)).flatten

end MAP

namespace MAP

/-! ## Partition arithmetic -/

lemma localLen_eq (N P r : Nat) :
    localLen N P r = if r < N % P then N / P + 1 else N / P := by
  unfold localLen; split <;> omega

lemma offset_sum (N P r : Nat) :
    offset N P r = ∑ k ∈ Finset.range r, localLen N P k := by
  induction r with
  | zero => simp [offset]
  | succ r ih => rw [Finset.sum_range_succ, offset, ih]

lemma sum_lt_indicator (m : Nat) :
    ∀ P, (∑ k ∈ Finset.range P, (if k < m then 1 else 0)) = min m P := by
  intro P
  induction P with
  | zero => simp
  | succ q ih =>
    rw [Finset.sum_range_succ, ih]
    split <;> omega

lemma offset_total (N P : Nat) (hP : 1 ≤ P) : offset N P P = N := by
  have h1 : offset N P P = P * (N / P) + min (N % P) P := by
    rw [offset_sum]
    simp only [localLen, Finset.sum_add_distrib, Finset.sum_const,
      Finset.card_range, smul_eq_mul, sum_lt_indicator]
  have h2 : N % P < P := Nat.mod_lt _ hP
  have h3 := Nat.div_add_mod N P
  omega

lemma offset_mono (N P : Nat) : Monotone (offset N P) :=
  monotone_nat_of_le_succ (fun r => Nat.le_add_right _ _)

/-! ## Claim theorems: the partitioner -/

/-- C3.  Partition completeness: for all `N ≥ 1`, `P ≥ 1` with `N ≥ P`, the
per-worker lengths `base + (r < remainder ? 1 : 0)` sum to exactly `N`, and
the induced cumulative offsets cover `[0, N)` contiguously without gaps or
overlaps: every global index `g < N` lies in exactly one worker's interval
`[offset_r, offset_r + length_r)`. -/
theorem partition_complete (N P : Nat) (hP : 1 ≤ P) (hPN : P ≤ N) :
    (∑ r ∈ Finset.range P, localLen N P r) = N ∧
    ∀ g, g < N →
      ∃! r, r < P ∧ offset N P r ≤ g ∧ g < offset N P r + localLen N P r := by
  have htot : offset N P P = N := offset_total N P hP
  constructor
  · rw [← offset_sum, htot]
  · intro g hg
    have hQ0 : offset N P 0 ≤ g := by simp [offset]
    set rs := Nat.findGreatest (fun r => offset N P r ≤ g) P with hrs
    have hspec : offset N P rs ≤ g :=
      Nat.findGreatest_spec (P := fun r => offset N P r ≤ g) (Nat.zero_le P) hQ0
    have hrsle : rs ≤ P := Nat.findGreatest_le P
    have hrsP : rs < P := by
      rcases Nat.lt_or_ge rs P with h | h
      · exact h
      · exfalso
        have heq : rs = P := le_antisymm hrsle h
        rw [heq, htot] at hspec
        omega
    have hup : g < offset N P (rs + 1) := by
      by_contra hcon
      push_neg at hcon
      exact Nat.findGreatest_is_greatest (Nat.lt_succ_self rs) hrsP hcon
    refine ⟨rs, ⟨hrsP, hspec, hup⟩, ?_⟩
    rintro r2 ⟨hr2P, hlo, hhi⟩
    by_contra hne
    rcases Nat.lt_or_ge r2 rs with h | h
    · have : offset N P (r2 + 1) ≤ offset N P rs := offset_mono N P h
      have : offset N P (r2 + 1) ≤ g := le_trans this hspec
      have hstep : offset N P (r2 + 1) = offset N P r2 + localLen N P r2 := rfl
      omega
    · have hlt : rs < r2 := by omega
      have : offset N P (rs + 1) ≤ offset N P r2 := offset_mono N P hlt
      omega

/-- Witness for C3 at `N = 10`, `P = 3`. -/
theorem partition_complete_witness :
    (1 : Nat) ≤ 3 ∧ (3 : Nat) ≤ 10 ∧
      ((∑ r ∈ Finset.range 3, localLen 10 3 r) = 10 ∧
        ∀ g, g < 10 →
          ∃! r, r < 3 ∧ offset 10 3 r ≤ g ∧ g < offset 10 3 r + localLen 10 3 r) :=
  ⟨by decide, by decide, partition_complete 10 3 (by decide) (by decide)⟩

/-- C7.  Partition fairness (`max length − min length ≤ 1`, stated as
`length_{r1} ≤ length_{r2} + 1` for all ranks), the `base + 1` iff
`r < remainder` rule, and the concrete instance `N = 10`, `P = 3`:
lengths `[4,3,3]`, offsets `[0,4,7]`, worker 0 without a left neighbour,
worker 2 without a right neighbour, worker 1 with both. -/
theorem partition_fair_and_ten_three :
    (∀ N P r1 r2 : Nat, localLen N P r1 ≤ localLen N P r2 + 1) ∧
    (∀ N P r : Nat, localLen N P r = if r < N % P then N / P + 1 else N / P) ∧
    localLen 10 3 0 = 4 ∧ localLen 10 3 1 = 3 ∧ localLen 10 3 2 = 3 ∧
    offset 10 3 0 = 0 ∧ offset 10 3 1 = 4 ∧ offset 10 3 2 = 7 ∧
    ¬ hasLeft 0 ∧ ¬ hasRight 3 2 ∧ hasLeft 1 ∧ hasRight 3 1 ∧
    hasLeft 2 ∧ hasRight 3 0 := by
  refine ⟨?_, localLen_eq, by decide, by decide, by decide, by decide,
    by decide, by decide, ?_, ?_, ?_, ?_, ?_, ?_⟩
  · intro N P r1 r2
    unfold localLen
    split <;> split <;> omega
  · simp [hasLeft]
  · simp [hasRight]
  · simp [hasLeft]
  · simp [hasRight]
  · simp [hasLeft]
  · simp [hasRight]

/-- C9.  Indexing safety: under `1 ≤ P ≤ N` every rank's local length is
positive, so the unconditional accesses `psi[0]` and `psi[local_N - 1]` and
every sweep access `psi[i]`, `psi[i+1]` for `i < local_N - 1` are in bounds;
and the precondition is necessary: when `N < P` some rank has local length
`0`, so `psi[0]` is out of bounds on that rank. -/
theorem index_safety :
    (∀ N P r : Nat, 1 ≤ P → P ≤ N → r < P →
        0 < localLen N P r ∧ localLen N P r - 1 < localLen N P r ∧
        ∀ i, i < localLen N P r - 1 →
          i < localLen N P r ∧ i + 1 < localLen N P r) ∧
    (∀ N P : Nat, N < P → ∃ r, r < P ∧ localLen N P r = 0) := by
  constructor
  · intro N P r hP hPN _
    have hdiv : 1 ≤ N / P := (Nat.one_le_div_iff hP).mpr hPN
    have hpos : 0 < localLen N P r := by
      unfold localLen; split <;> omega
    exact ⟨hpos, by omega, fun i hi => by omega⟩
  · intro N P hNP
    refine ⟨P - 1, by omega, ?_⟩
    have h1 : N / P = 0 := Nat.div_eq_of_lt hNP
    have h2 : N % P = N := Nat.mod_eq_of_lt hNP
    unfold localLen
    rw [h1, h2]
    have : ¬ (P - 1 < N) := by omega
    simp [this]

/-- Witness for C9: the safety part at `N = 10`, `P = 3`, `r = 1`, and the
necessity part at `N = 1`, `P = 2`. -/
theorem index_safety_witness :
    0 < localLen 10 3 1 ∧ ∃ r, r < 2 ∧ localLen 1 2 r = 0 :=
  ⟨(index_safety.1 10 3 1 (by decide) (by decide) (by decide)).1,
    index_safety.2 1 2 (by decide)⟩

/-- C2.  The partition computation in `h_parallel.cpp` performs no input
validation: at `N = 1`, `P = 2` rank 1's `local_N` is `0`, the vector
allocated at line 42 is empty, and the step loop still runs, so the
unconditional read `psi[0]` at line 50 is out of bounds (index `0` is not
below the segment's length).  No `InvalidInput` error path exists. -/
theorem no_partition_validation :
    localLen 1 2 1 = 0 ∧ (initSegs (R := ℤ) 1 2).getD 1 [] = [] ∧
    ¬ 0 < ((initSegs (R := ℤ) 1 2).getD 1 []).length := by
  decide

/-! ## The pairwise sweep -/

variable {R : Type} [CommRing R]

lemma pairUpdate_length (c s im : R) (psi : List R) (i : Nat) :
    (pairUpdate c s im psi i).length = psi.length := by
  simp [pairUpdate]

lemma foldl_pairUpdate_length (c s im : R) :
    ∀ (is : List Nat) (psi : List R),
      (is.foldl (pairUpdate c s im) psi).length = psi.length
  | [], _ => rfl
  | i :: is, psi => by
    rw [List.foldl_cons, foldl_pairUpdate_length c s im is, pairUpdate_length]

lemma sweepLoop_length (c s im : R) (psi : List R) :
    (sweepLoop c s im psi).length = psi.length :=
  foldl_pairUpdate_length c s im _ psi

lemma pairUpdate_cons_succ (c s im a : R) (l : List R) (i : Nat) :
    pairUpdate c s im (a :: l) (i + 1) = a :: pairUpdate c s im l i := by
  simp [pairUpdate]

lemma foldl_pairUpdate_map_succ (c s im : R) :
    ∀ (is : List Nat) (a : R) (l : List R),
      (is.map Nat.succ).foldl (pairUpdate c s im) (a :: l) =
        a :: is.foldl (pairUpdate c s im) l
  | [], _, _ => rfl
  | i :: is, a, l => by
    rw [List.map_cons, List.foldl_cons, List.foldl_cons, pairUpdate_cons_succ,
      foldl_pairUpdate_map_succ c s im is]

lemma pairUpdate_zero (c s im x y : R) (rest : List R) :
    pairUpdate c s im (x :: y :: rest) 0 =
      (c * x - im * s * y) :: (c * y - im * s * x) :: rest := by
  simp [pairUpdate]

lemma sweepLoop_cons_cons (c s im x y : R) (rest : List R) :
    sweepLoop c s im (x :: y :: rest) =
      (c * x - im * s * y) :: sweepLoop c s im ((c * y - im * s * x) :: rest) := by
  unfold sweepLoop
  have hlen : (x :: y :: rest).length - 1 = rest.length + 1 := by simp
  rw [hlen, List.range_succ_eq_map, List.foldl_cons, pairUpdate_zero,
    foldl_pairUpdate_map_succ]
  simp

/-- C4.  The sweep is a sequential (Gauss–Seidel-style) left-to-right pass:
the empty and singleton segments are untouched (zero loop iterations), and on
`x :: y :: rest` the first pair writes `c·x − im·s·y` into slot `i` and
`c·y − im·s·x` (using the saved `temp = x`) into slot `i+1`, after which the
remaining pairs run on the tail whose head is the value `c·y − im·s·x`
already written by this pair — pair `i+1` consumes pair `i`'s output, not the
pre-sweep value. -/
theorem sweep_sequential_semantics :
    (∀ c s im : R, sweepLoop c s im ([] : List R) = []) ∧
    (∀ c s im x : R, sweepLoop c s im [x] = [x]) ∧
    (∀ (c s im x y : R) (rest : List R),
      sweepLoop c s im (x :: y :: rest) =
        (c * x - im * s * y) :: sweepLoop c s im ((c * y - im * s * x) :: rest)) :=
  ⟨fun _ _ _ => rfl, fun _ _ _ _ => rfl, sweepLoop_cons_cons⟩

/-! ## Lengths through a parallel step -/

lemma postOverwrite_length (P r : Nat) (segs : List (List R)) :
    (postOverwrite P r segs).length = (segs.getD r []).length := by
  unfold postOverwrite
  split <;> split <;> simp

lemma workerStep_length (c s im : R) (P r : Nat) (segs : List (List R)) :
    (workerStep c s im P r segs).length = (segs.getD r []).length := by
  rw [workerStep, sweepLoop_length, postOverwrite_length]

lemma length_getD_map_length (segs : List (List R)) (r : Nat) :
    (segs.getD r []).length = (segs.map List.length).getD r 0 := by
  induction segs generalizing r with
  | nil => simp
  | cons hd tl ih =>
    cases r with
    | zero => rfl
    | succ n =>
      rw [List.getD_cons_succ, List.map_cons, List.getD_cons_succ]
      exact ih n

lemma parallelStep_map_length (c s im : R) (segs : List (List R)) :
    (parallelStep c s im segs).map List.length = segs.map List.length := by
  apply List.ext_getElem
  · simp [parallelStep]
  · intro i h1 h2
    simp only [parallelStep, List.length_map, List.length_range] at h1
    simp only [parallelStep, List.getElem_map, List.getElem_range]
    rw [workerStep_length, List.getD_eq_getElem segs [] h1]

lemma parallelRun_map_length (c s im : R) :
    ∀ (steps : Nat) (segs : List (List R)),
      (parallelRun c s im steps segs).map List.length = segs.map List.length
  | 0, _ => rfl
  | steps + 1, segs => by
    rw [parallelRun, parallelRun_map_length c s im steps,
      parallelStep_map_length]

lemma serialRun_singleton (c s im : R) :
    ∀ steps : Nat, serialRun c s im steps [(1 : R)] = [(1 : R)]
  | 0 => rfl
  | steps + 1 => by
    rw [serialRun]
    have : sweepLoop c s im [(1 : R)] = [(1 : R)] := rfl
    rw [this, serialRun_singleton c s im steps]

/-- C10.  Length-1 fixpoint and length preservation: for `N = 1` the serial
sweep performs zero iterations, so every step count leaves the state at the
initial `[1]`; moreover a sweep never changes the segment length, and one
parallel step (exchange, overwrite, sweep) preserves the number of workers
and every worker's segment length. -/
theorem singleton_fixpoint_and_length_preservation :
    (∀ (c s im : R) (steps : Nat),
      serialRun c s im steps (initPsi 1) = initPsi 1) ∧
    (∀ (c s im : R) (psi : List R), (sweepLoop c s im psi).length = psi.length) ∧
    (∀ (c s im : R) (segs : List (List R)),
      (parallelStep c s im segs).map List.length = segs.map List.length) :=
  ⟨fun c s im steps => serialRun_singleton c s im steps,
    sweepLoop_length, parallelStep_map_length⟩

/-! ## Which slots the boundary overwrite writes -/

lemma headD_set_zero {α : Type} (l : List α) (v d : α) (h : l ≠ []) :
    (l.set 0 v).headD d = v := by
  cases l with
  | nil => exact absurd rfl h
  | cons a t => rfl

lemma headD_set_succ {α : Type} (l : List α) (n : Nat) (v d : α) :
    (l.set (n + 1) v).headD d = l.headD d := by
  cases l <;> rfl

lemma getLastD_set_last {α : Type} (v : α) :
    ∀ (l : List α) (d : α), l ≠ [] → (l.set (l.length - 1) v).getLastD d = v
  | [], _, h => absurd rfl h
  | [_], _, _ => rfl
  | a :: b :: t, d, _ => by
    have hlen : (a :: b :: t).length - 1 = ((b :: t).length - 1) + 1 := by simp
    rw [hlen]
    show (a :: (b :: t).set ((b :: t).length - 1) v).getLastD d = v
    rw [List.getLastD_cons]
    exact getLastD_set_last v (b :: t) a (by simp)

lemma getLastD_default_irrel {α : Type} (l : List α) (d1 d2 : α) (h : l ≠ []) :
    l.getLastD d1 = l.getLastD d2 := by
  rw [List.getLastD_eq_getLast? d1 l, List.getLastD_eq_getLast? d2 l]
  rcases List.getLast?_isSome.mpr h |> Option.isSome_iff_exists.mp with ⟨a, ha⟩
  rw [ha]
  rfl

lemma getLastD_set_zero {α : Type} (l : List α) (v d : α) (h : 2 ≤ l.length) :
    (l.set 0 v).getLastD d = l.getLastD d := by
  match l, h with
  | a :: b :: t, _ =>
    show (v :: b :: t).getLastD d = (a :: b :: t).getLastD d
    rw [List.getLastD_cons d v (b :: t), List.getLastD_cons d a (b :: t)]
    exact getLastD_default_irrel (b :: t) v a (by simp)

/-- C6 (amended).  Halo exchange value semantics for a worker whose segment
has at least two elements: after the boundary overwrite, `segment[0]` is
exactly the left neighbour's pre-exchange last element (its `right_send`,
captured at the start of the step), and — when a right neighbour exists —
`segment[L-1]` is exactly the right neighbour's pre-exchange first element
(its `left_send`); no blending or averaging occurs.  (For a length-1 segment
with both neighbours the two target slots coincide and the right-neighbour
value, written second, survives — see the counterexample.) -/
theorem halo_receives_neighbor_boundary (segs : List (List R)) (P r : Nat)
    (hL : hasLeft r) (hlen : 2 ≤ (segs.getD r []).length) :
    (postOverwrite P r segs).headD 0 = (segs.getD (r - 1) []).getLastD 0 ∧
    (hasRight P r →
      (postOverwrite P r segs).getLastD 0 = (segs.getD (r + 1) []).headD 0) := by
  have hne : segs.getD r [] ≠ [] := by
    intro hcon
    rw [hcon] at hlen
    simp at hlen
  constructor
  · simp only [postOverwrite]
    rw [if_neg hL]
    split
    · exact headD_set_zero _ _ _ hne
    · rw [List.length_set]
      obtain ⟨k, hk⟩ : ∃ k, (segs.getD r []).length - 1 = k + 1 :=
        ⟨(segs.getD r []).length - 2, by omega⟩
      rw [hk, headD_set_succ]
      exact headD_set_zero _ _ _ hne
  · intro hR
    simp only [postOverwrite]
    rw [if_neg hL, if_neg hR]
    refine getLastD_set_last (recvRight segs r)
      ((segs.getD r []).set 0 (recvLeft segs r)) 0 ?_
    intro hcon
    apply hne
    have h2 := congrArg List.length hcon
    rw [List.length_set, List.length_nil] at h2
    exact List.length_eq_zero.mp h2

/-- Witness for C6 (amended) over `R = ℤ`: `P = 3`, `r = 1`,
segments `[[7,8],[1,2],[9]]`. -/
theorem halo_receives_neighbor_boundary_witness :
    hasLeft 1 ∧ 2 ≤ (([[7, 8], [1, 2], [9]] : List (List ℤ)).getD 1 []).length ∧
    ((postOverwrite 3 1 ([[7, 8], [1, 2], [9]] : List (List ℤ))).headD 0 =
        (([[7, 8], [1, 2], [9]] : List (List ℤ)).getD 0 []).getLastD 0 ∧
      (hasRight 3 1 →
        (postOverwrite 3 1 ([[7, 8], [1, 2], [9]] : List (List ℤ))).getLastD 0 =
          (([[7, 8], [1, 2], [9]] : List (List ℤ)).getD 2 []).headD 0)) :=
  ⟨by decide, by decide,
    halo_receives_neighbor_boundary [[7, 8], [1, 2], [9]] 3 1 (by decide) (by decide)⟩

/-- C5 (amended).  Domain-edge immutability: across every step of the
distributed run, the boundary overwrite leaves worker 0's `segment[0]`
(global index 0) and the highest rank's `segment[L-1]` (global index `N-1`)
unchanged, provided the respective edge worker's segment has at least two
elements (or `P = 1`, where both overwrites are skipped).  When an edge
worker's length is 1 and `P ≥ 2`, its single slot is also its
interior-facing boundary and is overwritten — see the counterexample. -/
theorem domain_edges_not_overwritten (c s im : R) (N P steps : Nat)
    (h0 : 2 ≤ localLen N P 0 ∨ P = 1)
    (h1 : 2 ≤ localLen N P (P - 1) ∨ P = 1) :
    (postOverwrite P 0 (parallelRun c s im steps (initSegs N P))).headD 0 =
      ((parallelRun c s im steps (initSegs N P)).getD 0 []).headD 0 ∧
    (postOverwrite P (P - 1) (parallelRun c s im steps (initSegs N P))).getLastD 0 =
      ((parallelRun c s im steps (initSegs N P)).getD (P - 1) []).getLastD 0 := by
  by_cases hP1 : P = 1
  · subst hP1
    constructor <;> simp [postOverwrite]
  · have h0' : 2 ≤ localLen N P 0 := h0.resolve_right hP1
    have h1' : 2 ≤ localLen N P (P - 1) := h1.resolve_right hP1
    have hPpos : 1 ≤ P := by
      rcases Nat.eq_zero_or_pos P with hz | hpos
      · subst hz
        simp only [localLen, Nat.div_zero, Nat.mod_zero, Nat.zero_add] at h0'
        split at h0' <;> omega
      · exact hpos
    have hrun : ∀ r, r < P →
        ((parallelRun c s im steps (initSegs N P)).getD r []).length =
          localLen N P r := by
      intro r hr
      rw [length_getD_map_length, parallelRun_map_length, ← length_getD_map_length]
      unfold initSegs
      rw [List.getD_eq_getElem _ _ (by simpa using hr)]
      simp
    have hlen0 := hrun 0 (by omega)
    have hlenL := hrun (P - 1) (by omega)
    constructor
    · simp only [postOverwrite]
      rw [if_neg (by omega : ¬ (0 : Nat) = P - 1), if_true]
      obtain ⟨k, hk⟩ :
          ∃ k, ((parallelRun c s im steps (initSegs N P)).getD 0 []).length - 1 =
            k + 1 := ⟨localLen N P 0 - 2, by omega⟩
      rw [hk, headD_set_succ]
    · simp only [postOverwrite]
      rw [if_true, if_neg (by omega : ¬ P - 1 = 0)]
      exact getLastD_set_zero ((parallelRun c s im steps (initSegs N P)).getD (P - 1) [])
        (recvLeft (parallelRun c s im steps (initSegs N P)) (P - 1)) 0 (by omega)

/-- Witness for C5 (amended) over `R = ℤ` at `N = 4`, `P = 2`, one step,
coefficients `c = 2`, `s = 3`, `im = 5`. -/
theorem domain_edges_not_overwritten_witness :
    (2 ≤ localLen 4 2 0 ∨ 2 = 1) ∧ (2 ≤ localLen 4 2 (2 - 1) ∨ 2 = 1) ∧
    ((postOverwrite 2 0 (parallelRun (2 : ℤ) 3 5 1 (initSegs 4 2))).headD 0 =
        ((parallelRun (2 : ℤ) 3 5 1 (initSegs 4 2)).getD 0 []).headD 0 ∧
      (postOverwrite 2 (2 - 1) (parallelRun (2 : ℤ) 3 5 1 (initSegs 4 2))).getLastD 0 =
        ((parallelRun (2 : ℤ) 3 5 1 (initSegs 4 2)).getD (2 - 1) []).getLastD 0) :=
  ⟨by decide, by decide,
    domain_edges_not_overwritten 2 3 5 4 2 1 (by decide) (by decide)⟩

/-! ## Concrete runs (generic in the ring and the coefficients) -/

lemma parallelConcat_one_two_two (c s im : R) :
    parallelConcat c s im 1 2 2 = [1, 1] := rfl

lemma serialRun_one_pair (c s im : R) :
    serialRun c s im 1 (initPsi 2) = [c - im * s, c - im * s] := by
  show sweepLoop c s im [1, 1] = _
  simp [sweepLoop, pairUpdate, List.range_succ]

lemma parallelRun_one_five_three (c s im : R) :
    parallelRun c s im 1 (initSegs 5 3) =
      [[c - im * s, c - im * s], [c - im * s, c - im * s], [1]] := by
  show parallelStep c s im (initSegs 5 3) = _
  simp [parallelStep, workerStep, postOverwrite, sweepLoop, pairUpdate,
    recvLeft, recvRight, initSegs, localLen, List.range_succ]

lemma parallelRun_one_four_three (c s im : R) :
    parallelRun c s im 1 (initSegs 4 3) =
      [[c - im * s, c - im * s], [1], [1]] := by
  show parallelStep c s im (initSegs 4 3) = _
  simp [parallelStep, workerStep, postOverwrite, sweepLoop, pairUpdate,
    recvLeft, recvRight, initSegs, localLen, List.range_succ]

lemma serialRun_one_four_sites (c s im : R) :
    serialRun c s im 1 (initPsi 4) =
      [c - im * s,
       c * (c - im * s) - im * s,
       c * (c - im * s * (c - im * s)) - im * s,
       c - im * s * (c - im * s * (c - im * s))] := by
  show sweepLoop c s im [1, 1, 1, 1] = _
  simp [sweepLoop, pairUpdate, List.range_succ]

/-! ## The program's actual coefficients: `c = cos(J·dt)`, `s = sin(J·dt)`
with `J = 1.0`, `dt = 0.01` (`h_serial.cpp` line 20, `h_parallel.cpp`
lines 34-35), over `ℂ` with `im = Complex.I`. -/

lemma sin_Jdt_gt_tol : (1e-12 : ℝ) < Real.sin (1 * 0.01) := by
  have h := Real.sin_gt_sub_cube (x := 1 * 0.01) (by norm_num) (by norm_num)
  calc (1e-12 : ℝ) < 1 * 0.01 - (1 * 0.01) ^ 3 / 4 := by norm_num
    _ < Real.sin (1 * 0.01) := h

lemma sin_Jdt_pos : (0 : ℝ) < Real.sin (1 * 0.01) :=
  lt_trans (by norm_num) sin_Jdt_gt_tol

lemma one_ne_rot :
    (1 : ℂ) ≠
      (Real.cos (1 * 0.01) : ℂ) - Complex.I * (Real.sin (1 * 0.01) : ℂ) := by
  intro hc
  have him := congrArg Complex.im hc
  simp only [Complex.sub_im, Complex.mul_im, Complex.I_re, Complex.I_im,
    Complex.ofReal_re, Complex.ofReal_im, Complex.one_im] at him
  have h0 : (0 : ℝ) = -(Real.sin (1 * 0.01)) := by linarith [him]
  linarith [sin_Jdt_pos]

/-- C1.  Serial/parallel divergence at the failing input `N = 2`, `P = 2`
(which evenly divides `N`), one step, `dt = 0.01`, `J = 1.0`: the
distributed run leaves the concatenated state at `[1, 1]` (each worker's
single slot is overwritten with the neighbour's pre-step value and its sweep
is empty), while the serial run rotates both amplitudes to
`cos(0.01) − i·sin(0.01)`; the element-wise difference at index 0 exceeds
the claimed `1e-12` tolerance, so the two runs are not equivalent. -/
theorem serial_parallel_divergence :
    parallelConcat ((Real.cos (1 * 0.01) : ℂ)) ((Real.sin (1 * 0.01) : ℂ))
        Complex.I 1 2 2 = [1, 1] ∧
    serialRun ((Real.cos (1 * 0.01) : ℂ)) ((Real.sin (1 * 0.01) : ℂ))
        Complex.I 1 (initPsi 2) =
      [(Real.cos (1 * 0.01) : ℂ) - Complex.I * (Real.sin (1 * 0.01) : ℂ),
       (Real.cos (1 * 0.01) : ℂ) - Complex.I * (Real.sin (1 * 0.01) : ℂ)] ∧
    (1e-12 : ℝ) <
      Complex.abs
        ((serialRun ((Real.cos (1 * 0.01) : ℂ)) ((Real.sin (1 * 0.01) : ℂ))
            Complex.I 1 (initPsi 2)).getD 0 0 -
         (parallelConcat ((Real.cos (1 * 0.01) : ℂ)) ((Real.sin (1 * 0.01) : ℂ))
            Complex.I 1 2 2).getD 0 0) := by
  have h1 := parallelConcat_one_two_two ((Real.cos (1 * 0.01) : ℂ))
    ((Real.sin (1 * 0.01) : ℂ)) Complex.I
  have h2 := serialRun_one_pair ((Real.cos (1 * 0.01) : ℂ))
    ((Real.sin (1 * 0.01) : ℂ)) Complex.I
  refine ⟨h1, h2, ?_⟩
  rw [h1, h2]
  simp only [List.getD_cons_zero]
  have him :
      ((Real.cos (1 * 0.01) : ℂ) - Complex.I * (Real.sin (1 * 0.01) : ℂ) - 1).im
        = -(Real.sin (1 * 0.01)) := by
    simp only [Complex.sub_im, Complex.mul_im, Complex.I_re, Complex.I_im,
      Complex.ofReal_re, Complex.ofReal_im, Complex.one_im]
    ring
  calc (1e-12 : ℝ) < Real.sin (1 * 0.01) := sin_Jdt_gt_tol
    _ = |(-(Real.sin (1 * 0.01)))| := by
        rw [abs_neg, abs_of_pos sin_Jdt_pos]
    _ = |((Real.cos (1 * 0.01) : ℂ) - Complex.I * (Real.sin (1 * 0.01) : ℂ)
          - 1).im| := by rw [him]
    _ ≤ Complex.abs ((Real.cos (1 * 0.01) : ℂ)
          - Complex.I * (Real.sin (1 * 0.01) : ℂ) - 1) :=
        Complex.abs_im_le_abs _

/-- C5 counterexample.  At `N = 5`, `P = 3` (`base = 1`, so the last worker's
segment has length 1) the element at global index `N − 1 = 4` IS overwritten
by the boundary-overwrite step: after one step its value is `1`, and the
next step's overwrite replaces it with the left neighbour's boundary value
`cos(0.01) − i·sin(0.01) ≠ 1`. -/
theorem edge_slot_overwritten_cex :
    ((parallelRun ((Real.cos (1 * 0.01) : ℂ)) ((Real.sin (1 * 0.01) : ℂ))
        Complex.I 1 (initSegs 5 3)).getD 2 []).headD 0 = 1 ∧
    (postOverwrite 3 2 (parallelRun ((Real.cos (1 * 0.01) : ℂ))
        ((Real.sin (1 * 0.01) : ℂ)) Complex.I 1 (initSegs 5 3))).headD 0 =
      (Real.cos (1 * 0.01) : ℂ) - Complex.I * (Real.sin (1 * 0.01) : ℂ) ∧
    (Real.cos (1 * 0.01) : ℂ) - Complex.I * (Real.sin (1 * 0.01) : ℂ) ≠ 1 := by
  have h1 := parallelRun_one_five_three ((Real.cos (1 * 0.01) : ℂ))
    ((Real.sin (1 * 0.01) : ℂ)) Complex.I
  refine ⟨by rw [h1]; rfl, ?_, fun hc => one_ne_rot hc.symm⟩
  rw [h1]
  simp [postOverwrite, recvLeft]

/-- C6 counterexample.  At `N = 4`, `P = 3` worker 1 has a length-1 segment
and both neighbours; in the second step its post-overwrite `segment[0]` is
`1` (the right neighbour's boundary value, written last), not the left
neighbour's pre-exchange last element `cos(0.01) − i·sin(0.01)`. -/
theorem halo_left_value_clobbered_cex :
    (postOverwrite 3 1 (parallelRun ((Real.cos (1 * 0.01) : ℂ))
        ((Real.sin (1 * 0.01) : ℂ)) Complex.I 1 (initSegs 4 3))).headD 0 = 1 ∧
    ((parallelRun ((Real.cos (1 * 0.01) : ℂ)) ((Real.sin (1 * 0.01) : ℂ))
        Complex.I 1 (initSegs 4 3)).getD 0 []).getLastD 0 =
      (Real.cos (1 * 0.01) : ℂ) - Complex.I * (Real.sin (1 * 0.01) : ℂ) ∧
    (1 : ℂ) ≠
      (Real.cos (1 * 0.01) : ℂ) - Complex.I * (Real.sin (1 * 0.01) : ℂ) := by
  have h1 := parallelRun_one_four_three ((Real.cos (1 * 0.01) : ℂ))
    ((Real.sin (1 * 0.01) : ℂ)) Complex.I
  refine ⟨?_, by rw [h1]; rfl, one_ne_rot⟩
  rw [h1]
  simp [postOverwrite, recvLeft, recvRight]

/-- C8.  Concrete one-step scenario: `N = 4`, one step, `dt = 0.01`,
`J = 1.0`, single worker, initial state `[1,1,1,1]`.  With `c = cos(0.01)`
and `s = sin(0.01)` the final state equals, exactly (hence within any
tolerance), the spec's pair-by-pair construction: the first pair yields
`c − i·s` at indices 0 and 1; the second pair overwrites indices 1 and 2
using the new index-1 value; the third pair overwrites indices 2 and 3. -/
theorem four_site_one_step_exact :
    serialRun ((Real.cos (1 * 0.01) : ℂ)) ((Real.sin (1 * 0.01) : ℂ))
        Complex.I 1 (initPsi 4) =
      [(Real.cos (1 * 0.01) : ℂ) - Complex.I * (Real.sin (1 * 0.01) : ℂ),
       (Real.cos (1 * 0.01) : ℂ) *
          ((Real.cos (1 * 0.01) : ℂ) - Complex.I * (Real.sin (1 * 0.01) : ℂ)) -
        Complex.I * (Real.sin (1 * 0.01) : ℂ),
       (Real.cos (1 * 0.01) : ℂ) *
          ((Real.cos (1 * 0.01) : ℂ) - Complex.I * (Real.sin (1 * 0.01) : ℂ) *
            ((Real.cos (1 * 0.01) : ℂ) - Complex.I * (Real.sin (1 * 0.01) : ℂ))) -
        Complex.I * (Real.sin (1 * 0.01) : ℂ),
       (Real.cos (1 * 0.01) : ℂ) - Complex.I * (Real.sin (1 * 0.01) : ℂ) *
          ((Real.cos (1 * 0.01) : ℂ) - Complex.I * (Real.sin (1 * 0.01) : ℂ) *
            ((Real.cos (1 * 0.01) : ℂ) - Complex.I * (Real.sin (1 * 0.01) : ℂ)))] :=
  serialRun_one_four_sites _ _ _

end MAP
